import Mathlib

/-!
Verification of `src/testfiles/bubblesort.py`: a pipeline that reads numbers
from a text file, bubble-sorts them, and writes the result.

The embedding follows the Python source closely:
* `NumVal` is the tagged int/float value produced by `read_numbers`
  (Python floats of decimal tokens are modelled as exact rationals);
* `bpass`/`bubbleAux`/`bubble_sort` embed the in-place bubble sort with the
  shrinking pass bound `n - i - 1` and the early-exit `swapped` flag;
* an index-based variant `bubble_sortIdx` mirrors the Python loops literally,
  with `Option`-valued list indexing, and is proved equal to `bubble_sort`;
* `tokens` embeds `re.findall` for the pattern `[+-]?\d+(?:\.\d+)?`;
* `parseToken`, `fmt`, `withSuffix` and `runMain` embed the rest of `main`.
-/

/-- A Python number as produced by `read_numbers`: `int(t)` for tokens without
a dot, `float(t)` for tokens with a dot.  The float payload is modelled as an
exact rational (tokens are finite decimals). -/
inductive NumVal where
  | i (n : Int)
  | f (q : Rat)
deriving DecidableEq, Repr

/-- Numeric value of a `NumVal`; Python compares ints and floats numerically. -/
def NumVal.val : NumVal → Rat
  | .i n => (n : Rat)
  | .f q => q

/-- The order used to state sortedness: `a` precedes `b` when its numeric value
is not larger (Python `arr[j] > arr[j+1]` is the strict dual of this). -/
def nle (a b : NumVal) : Prop := a.val ≤ b.val

instance : DecidableRel nle := fun a b => inferInstanceAs (Decidable (a.val ≤ b.val))

instance : IsTrans NumVal nle := ⟨fun _ _ _ h1 h2 => le_trans h1 h2⟩

/-- One inner pass of `bubble_sort` performing at most `m` adjacent
comparisons (`for j in range(0, n - i - 1)`), returning the updated list and
the `swapped` flag.  A swap happens exactly when `arr[j] > arr[j+1]`, i.e.
when the numeric value of the second element is smaller. -/
def bpass : List NumVal → Nat → List NumVal × Bool
  | xs, 0 => (xs, false)
  | [], _ + 1 => ([], false)
  | [x], _ + 1 => ([x], false)
  | x :: y :: rest, m + 1 =>
      if y.val < x.val then
        let p := bpass (x :: rest) m
        (y :: p.1, true)
      else
        let p := bpass (y :: rest) m
        (x :: p.1, p.2)

/-- The outer loop `for i in range(n)`, with `r` iterations remaining
(`r = n - i`); each pass does `n - i - 1 = r - 1` comparisons and the loop
breaks when a pass swaps nothing. -/
def bubbleAux : Nat → List NumVal → List NumVal
  | 0, xs => xs
  | r + 1, xs =>
      let p := bpass xs r
      if p.2 then bubbleAux r p.1 else p.1

/-- `bubble_sort` from the source: `n = len(arr)` outer iterations. -/
def bubble_sort (arr : List NumVal) : List NumVal :=
  bubbleAux arr.length arr

theorem bpass_length (xs : List NumVal) (m : Nat) :
    (bpass xs m).1.length = xs.length := by
  induction m generalizing xs with
  | zero => simp [bpass]
  | succ m ih =>
    match xs with
    | [] => simp [bpass]
    | [x] => simp [bpass]
    | x :: y :: rest =>
      by_cases h : y.val < x.val <;>
        simp [bpass, h, ih]

theorem bpass_perm (xs : List NumVal) (m : Nat) :
    List.Perm (bpass xs m).1 xs := by
  induction m generalizing xs with
  | zero => simp [bpass]
  | succ m ih =>
    match xs with
    | [] => simp [bpass]
    | [x] => simp [bpass]
    | x :: y :: rest =>
      by_cases h : y.val < x.val
      · simp only [bpass, if_pos h]
        exact ((ih (x :: rest)).cons y).trans (List.Perm.swap x y rest)
      · simp only [bpass, if_neg h]
        exact (ih (y :: rest)).cons x

theorem bpass_no_swap (xs : List NumVal) (m : Nat)
    (h : (bpass xs m).2 = false) : (bpass xs m).1 = xs := by
  induction m generalizing xs with
  | zero => simp [bpass]
  | succ m ih =>
    match xs with
    | [] => simp [bpass]
    | [x] => simp [bpass]
    | x :: y :: rest =>
      by_cases hxy : y.val < x.val
      · simp [bpass, hxy] at h
      · simp only [bpass, if_neg hxy] at h ⊢
        rw [ih (y :: rest) h]

theorem bpass_drop (xs : List NumVal) (m : Nat) :
    (bpass xs m).1.drop (m + 1) = xs.drop (m + 1) := by
  induction m generalizing xs with
  | zero => simp [bpass]
  | succ m ih =>
    match xs with
    | [] => simp [bpass]
    | [x] => simp [bpass]
    | x :: y :: rest =>
      by_cases h : y.val < x.val
      · simpa [bpass, h] using ih (x :: rest)
      · simpa [bpass, h] using ih (y :: rest)

/-- The element a bounded pass lands at position `m` dominates the whole first
`m + 1` elements of the input: the running maximum bubbles rightwards. -/
theorem bpass_get_max (m : Nat) (xs : List NumVal) (b : NumVal)
    (hb : ((bpass xs m).1)[m]? = some b) :
    ∀ a ∈ xs.take (m + 1), a.val ≤ b.val := by
  induction m generalizing xs b with
  | zero =>
    match xs with
    | [] => simp [bpass] at hb
    | x :: t =>
      simp only [bpass] at hb
      simp only [List.getElem?_cons_zero, Option.some.injEq] at hb
      subst hb
      intro a ha
      simp [List.take] at ha
      simp [ha]
  | succ m ih =>
    match xs with
    | [] => simp [bpass] at hb
    | [x] => simp [bpass] at hb
    | x :: y :: rest =>
      by_cases h : y.val < x.val
      · simp only [bpass, if_pos h, List.getElem?_cons_succ] at hb
        have key := ih (x :: rest) b hb
        intro a ha
        simp only [List.take_succ_cons, List.mem_cons] at ha
        rcases ha with rfl | rfl | ha
        · exact key a (by simp [List.take_succ_cons])
        · exact le_trans (le_of_lt h) (key x (by simp [List.take_succ_cons]))
        · exact key a (by simp [List.take_succ_cons, ha])
      · simp only [bpass, if_neg h, List.getElem?_cons_succ] at hb
        have key := ih (y :: rest) b hb
        intro a ha
        simp only [List.take_succ_cons, List.mem_cons] at ha
        rcases ha with rfl | rfl | ha
        · exact le_trans (le_of_not_lt h) (key y (by simp [List.take_succ_cons]))
        · exact key a (by simp [List.take_succ_cons])
        · exact key a (by simp [List.take_succ_cons, ha])

/-- A pass that swapped nothing found the first `m + 1` elements already in
non-decreasing order. -/
theorem bpass_no_swap_chain (xs : List NumVal) (m : Nat)
    (h : (bpass xs m).2 = false) : List.Chain' nle (xs.take (m + 1)) := by
  induction m generalizing xs with
  | zero =>
    match xs with
    | [] => simp
    | x :: t => simp [List.take_succ_cons]
  | succ m ih =>
    match xs with
    | [] => simp
    | [x] => simp [List.take_succ_cons]
    | x :: y :: rest =>
      by_cases hxy : y.val < x.val
      · simp [bpass, hxy] at h
      · simp only [bpass, if_neg hxy] at h
        have := ih (y :: rest) h
        simp only [List.take_succ_cons] at this ⊢
        exact (List.chain'_cons).2 ⟨le_of_not_lt hxy, this⟩

/-- Loop invariant of the outer loop with `r` iterations remaining: the last
`length - r` elements are already in their final, sorted positions and
dominate the first `r` elements. -/
def SuffixInv (r : Nat) (xs : List NumVal) : Prop :=
  List.Chain' nle (xs.drop r) ∧ ∀ a ∈ xs.take r, ∀ b ∈ xs.drop r, a.val ≤ b.val

theorem take_perm_of_perm_drop (ys xs : List NumVal) (k : Nat)
    (hp : List.Perm ys xs) (hd : ys.drop k = xs.drop k) :
    List.Perm (ys.take k) (xs.take k) := by
  have h1 : ys.take k ++ ys.drop k = ys := List.take_append_drop k ys
  have h2 : xs.take k ++ xs.drop k = xs := List.take_append_drop k xs
  have hmid : List.Perm (ys.take k ++ ys.drop k) (xs.take k ++ xs.drop k) := by
    rw [h1, h2]; exact hp
  rw [hd] at hmid
  exact (List.perm_append_right_iff _).1 hmid

theorem suffixInv_step (r : Nat) (xs : List NumVal) (h : SuffixInv (r + 1) xs) :
    SuffixInv r (bpass xs r).1 := by
  obtain ⟨hchain, hdom⟩ := h
  by_cases hr : (bpass xs r).1.length ≤ r
  · constructor
    · rw [List.drop_eq_nil_of_le hr]; exact List.chain'_nil
    · intro a _ c hc; rw [List.drop_eq_nil_of_le hr] at hc; simp at hc
  · push_neg at hr
    cases hq : ((bpass xs r).1)[r]? with
    | none =>
      rw [List.getElem?_eq_none_iff] at hq
      omega
    | some b =>
      have hbr : (bpass xs r).1.get ⟨r, hr⟩ = b := by
        have := List.getElem?_eq_getElem hr
        rw [hq] at this
        simpa [List.get_eq_getElem] using (Option.some_inj.1 this).symm
      have hdropr : (bpass xs r).1.drop r = b :: (bpass xs r).1.drop (r + 1) := by
        rw [List.drop_eq_getElem_cons hr]
        simp [List.get_eq_getElem] at hbr
        rw [hbr]
      have hdrop1 : (bpass xs r).1.drop (r + 1) = xs.drop (r + 1) := bpass_drop xs r
      have hmax : ∀ a ∈ xs.take (r + 1), a.val ≤ b.val := bpass_get_max r xs b hq
      have htakeperm : List.Perm ((bpass xs r).1.take (r + 1)) (xs.take (r + 1)) :=
        take_perm_of_perm_drop _ _ _ (bpass_perm xs r) (by rw [hdrop1])
      have hbmem : b ∈ xs.take (r + 1) := by
        have hb1 : ((bpass xs r).1.take (r + 1))[r]? = some b := by
          rw [List.getElem?_take_of_lt (Nat.lt_succ_self r)]; exact hq
        exact htakeperm.mem_iff.1 (List.getElem?_mem hb1)
      constructor
      · rw [hdropr]
        refine (List.chain'_cons').2 ⟨?_, ?_⟩
        · intro c hc
          have hcmem : c ∈ xs.drop (r + 1) := by
            rw [← hdrop1]; exact List.mem_of_mem_head? hc
          exact hdom b hbmem c hcmem
        · rw [hdrop1]; exact hchain
      · intro a ha c hc
        have hamem : a ∈ xs.take (r + 1) :=
          htakeperm.mem_iff.1
            ((List.take_prefix_take_left _ (Nat.le_succ r)).subset ha)
        rw [hdropr] at hc
        rcases List.mem_cons.1 hc with rfl | hc2
        · exact hmax a hamem
        · exact hdom a hamem c (by rw [← hdrop1]; exact hc2)

theorem bubbleAux_chain_perm (r : Nat) (xs : List NumVal) (h : SuffixInv r xs) :
    List.Chain' nle (bubbleAux r xs) ∧ List.Perm (bubbleAux r xs) xs := by
  induction r generalizing xs with
  | zero => exact ⟨by simpa [bubbleAux] using h.1, List.Perm.refl xs⟩
  | succ r ih =>
    by_cases hs : (bpass xs r).2
    · have hstep := suffixInv_step r xs h
      have hrec := ih (bpass xs r).1 hstep
      refine ⟨by simpa [bubbleAux, hs] using hrec.1, ?_⟩
      have hp := hrec.2.trans (bpass_perm xs r)
      simpa [bubbleAux, hs] using hp
    · have hflag : (bpass xs r).2 = false := by simpa using hs
      have heq : (bpass xs r).1 = xs := bpass_no_swap xs r hflag
      have hres : bubbleAux (r + 1) xs = xs := by simp [bubbleAux, hflag, heq]
      rw [hres]
      refine ⟨?_, List.Perm.refl xs⟩
      have hchain1 : List.Chain' nle (xs.take (r + 1)) := bpass_no_swap_chain xs r hflag
      have hchain2 : List.Chain' nle (xs.drop (r + 1)) := h.1
      have hlink : ∀ a ∈ (xs.take (r + 1)).getLast?, ∀ c ∈ (xs.drop (r + 1)).head?,
          nle a c := fun a ha c hc =>
        h.2 a (List.mem_of_mem_getLast? ha) c (List.mem_of_mem_head? hc)
      have hall := List.chain'_append.2 ⟨hchain1, hchain2, hlink⟩
      rwa [List.take_append_drop] at hall

theorem suffixInv_init (xs : List NumVal) : SuffixInv xs.length xs := by
  constructor
  · rw [List.drop_eq_nil_of_le (le_refl _)]; exact List.chain'_nil
  · intro a _ c hc
    rw [List.drop_eq_nil_of_le (le_refl _)] at hc
    simp at hc

theorem bubble_sort_perm (l : List NumVal) : List.Perm (bubble_sort l) l :=
  (bubbleAux_chain_perm l.length l (suffixInv_init l)).2

theorem bubble_sort_pairwise (l : List NumVal) : List.Pairwise nle (bubble_sort l) :=
  (List.chain'_iff_pairwise).1 (bubbleAux_chain_perm l.length l (suffixInv_init l)).1

/-- Filter invariance of a pass: a predicate that never distinguishes two
elements the pass would swap (in particular "has numeric value `v`") sees the
same sublist before and after the pass.  This is stability, pass-level. -/
theorem bpass_filter (p : NumVal → Bool)
    (hp : ∀ a b : NumVal, p a = true → p b = true → ¬ b.val < a.val)
    (m : Nat) (xs : List NumVal) :
    ((bpass xs m).1).filter p = xs.filter p := by
  induction m generalizing xs with
  | zero => simp [bpass]
  | succ m ih =>
    match xs with
    | [] => simp [bpass]
    | [x] => simp [bpass]
    | x :: y :: rest =>
      by_cases h : y.val < x.val
      · have hnot : ¬ (p x = true ∧ p y = true) := fun ⟨hx, hy⟩ => hp x y hx hy h
        simp only [bpass, if_pos h]
        have := ih (x :: rest)
        by_cases hx : p x = true <;> by_cases hy : p y = true
        · exact absurd ⟨hx, hy⟩ hnot
        · simp only [List.filter_cons] at this ⊢
          simp [hx, hy] at this ⊢
          exact this
        · simp only [List.filter_cons] at this ⊢
          simp [hx, hy] at this ⊢
          exact this
        · simp only [List.filter_cons] at this ⊢
          simp [hx, hy] at this ⊢
          exact this
      · simp only [bpass, if_neg h]
        have := ih (y :: rest)
        simp only [List.filter_cons] at this ⊢
        by_cases hx : p x = true <;> simp [hx, this]

theorem bubbleAux_filter (p : NumVal → Bool)
    (hp : ∀ a b : NumVal, p a = true → p b = true → ¬ b.val < a.val)
    (r : Nat) (xs : List NumVal) :
    (bubbleAux r xs).filter p = xs.filter p := by
  induction r generalizing xs with
  | zero => simp [bubbleAux]
  | succ r ih =>
    by_cases hs : (bpass xs r).2
    · simp only [bubbleAux, hs, if_pos]
      rw [ih (bpass xs r).1, bpass_filter p hp]
    · simp only [bubbleAux, hs]
      simp only [Bool.false_eq_true, if_false]
      exact bpass_filter p hp r xs

theorem bubble_sort_filter (p : NumVal → Bool)
    (hp : ∀ a b : NumVal, p a = true → p b = true → ¬ b.val < a.val)
    (l : List NumVal) : (bubble_sort l).filter p = l.filter p :=
  bubbleAux_filter p hp l.length l

/-- A pass over an already non-decreasing list swaps nothing and returns the
list unchanged. -/
theorem bpass_of_chain (xs : List NumVal) (m : Nat)
    (h : List.Chain' nle xs) : bpass xs m = (xs, false) := by
  induction m generalizing xs with
  | zero => simp [bpass]
  | succ m ih =>
    match xs with
    | [] => simp [bpass]
    | [x] => simp [bpass]
    | x :: y :: rest =>
      have hxy : nle x y := (List.chain'_cons.1 h).1
      have hneg : ¬ y.val < x.val := not_lt.2 hxy
      simp only [bpass, if_neg hneg]
      rw [ih (y :: rest) (List.chain'_cons.1 h).2]

theorem bubbleAux_of_chain (r : Nat) (xs : List NumVal)
    (h : List.Chain' nle xs) : bubbleAux r xs = xs := by
  cases r with
  | zero => simp [bubbleAux]
  | succ r => simp [bubbleAux, bpass_of_chain xs r h]

/-- The inner loop of `bubble_sort` exactly as Python executes it: `j` is the
running index, `c` the remaining iterations of `range(0, n - i - 1)`, `sw` the
`swapped` flag.  Indexing is `Option`-valued, so any out-of-bounds access of
`arr[j]` or `arr[j + 1]` would surface as `none`. -/
def innerIdxGo : List NumVal → Nat → Nat → Bool → Option (List NumVal × Bool)
  | arr, _, 0, sw => some (arr, sw)
  | arr, j, c + 1, sw =>
    match arr[j]?, arr[j + 1]? with
    | some x, some y =>
        if y.val < x.val then
          innerIdxGo ((arr.set j y).set (j + 1) x) (j + 1) c true
        else innerIdxGo arr (j + 1) c sw
    | _, _ => none

/-- The outer loop `for i in range(n)` of the index-level embedding, with
`r = n - i` iterations remaining. -/
def outerIdx : Nat → List NumVal → Option (List NumVal)
  | 0, arr => some arr
  | r + 1, arr =>
    match innerIdxGo arr 0 r false with
    | none => none
    | some p => if p.2 then outerIdx r p.1 else some p.1

/-- Literal index-level embedding of `bubble_sort`. -/
def bubble_sortIdx (arr : List NumVal) : Option (List NumVal) :=
  outerIdx arr.length arr

theorem set_append_length (pre l : List NumVal) (k : Nat) (v : NumVal) :
    (pre ++ l).set (pre.length + k) v = pre ++ l.set k v := by
  induction pre with
  | nil => simp
  | cons a t ih => simp [List.set, Nat.succ_add, ih]

theorem getElem?_append_length (pre l : List NumVal) (k : Nat) :
    (pre ++ l)[pre.length + k]? = l[k]? := by
  induction pre with
  | nil => simp
  | cons a t ih => simpa [Nat.succ_add] using ih

/-- The index-level inner loop, started at position `pre.length` with `c`
iterations left and everything in bounds, computes the structural pass
`bpass` on the untouched suffix. -/
theorem innerIdxGo_eq (c : Nat) : ∀ (pre rest : List NumVal) (sw : Bool),
    c < rest.length ∨ c = 0 →
    innerIdxGo (pre ++ rest) pre.length c sw =
      some (pre ++ (bpass rest c).1, sw || (bpass rest c).2) := by
  induction c with
  | zero => intro pre rest sw _; simp [innerIdxGo, bpass]
  | succ c ih =>
    intro pre rest sw hlen
    have hc : c + 1 < rest.length := by omega
    match rest with
    | [] => simp at hc
    | [x] => simp at hc
    | x :: y :: rest2 =>
      have hc2 : c < rest2.length + 1 := by
        simp only [List.length_cons] at hc
        omega
      have hx : (pre ++ x :: y :: rest2)[pre.length]? = some x := by
        have := getElem?_append_length pre (x :: y :: rest2) 0
        simpa using this
      have hy : (pre ++ x :: y :: rest2)[pre.length + 1]? = some y := by
        have := getElem?_append_length pre (x :: y :: rest2) 1
        simpa using this
      by_cases h : y.val < x.val
      · have hset : ((pre ++ x :: y :: rest2).set pre.length y).set (pre.length + 1) x
            = pre ++ y :: x :: rest2 := by
          have h0 := set_append_length pre (x :: y :: rest2) 0 y
          simp only [Nat.add_zero] at h0
          rw [h0]
          have h1 := set_append_length pre (y :: y :: rest2) 1 x
          simp only [List.set] at h1
          simp
        have hrec := ih (pre ++ [y]) (x :: rest2) true (by
          rcases Nat.eq_zero_or_pos c with h0 | hpos
          · exact Or.inr h0
          · exact Or.inl (by simp only [List.length_cons]; omega))
        simp only [innerIdxGo, hx, hy, if_pos h, hset]
        have hlen1 : pre.length + 1 = (pre ++ [y]).length := by simp
        rw [hlen1]
        have hassoc : pre ++ y :: x :: rest2 = (pre ++ [y]) ++ (x :: rest2) := by simp
        rw [hassoc, hrec]
        simp only [bpass, if_pos h]
        simp
      · have hrec := ih (pre ++ [x]) (y :: rest2) sw (by
          rcases Nat.eq_zero_or_pos c with h0 | hpos
          · exact Or.inr h0
          · exact Or.inl (by simp only [List.length_cons]; omega))
        simp only [innerIdxGo, hx, hy, if_neg h]
        have hlen1 : pre.length + 1 = (pre ++ [x]).length := by simp
        have hassoc : pre ++ x :: y :: rest2 = (pre ++ [x]) ++ (y :: rest2) := by simp
        rw [hassoc, hlen1, hrec]
        simp only [bpass, if_neg h]
        simp

theorem outerIdx_eq (r : Nat) : ∀ arr : List NumVal, r ≤ arr.length →
    outerIdx r arr = some (bubbleAux r arr) := by
  induction r with
  | zero => intro arr _; simp [outerIdx, bubbleAux]
  | succ r ih =>
    intro arr hr
    have hinner := innerIdxGo_eq r [] arr false (by
      rcases Nat.eq_zero_or_pos r with h0 | hpos
      · exact Or.inr h0
      · exact Or.inl (by omega))
    simp only [List.nil_append, List.length_nil] at hinner
    simp only [outerIdx, hinner, Bool.false_or]
    by_cases hs : (bpass arr r).2
    · have hlen : r ≤ (bpass arr r).1.length := by rw [bpass_length]; omega
      simp [bubbleAux, hs, ih (bpass arr r).1 hlen]
    · simp [bubbleAux, hs]

/-- All list accesses of the Python loops are in bounds: the index-level
run never fails, and it returns exactly `bubble_sort`. -/
theorem bubble_sortIdx_eq (l : List NumVal) :
    bubble_sortIdx l = some (bubble_sort l) :=
  outerIdx_eq l.length l (le_refl _)

/-- Number of adjacent comparisons performed by `bubble_sort` with `r` outer
iterations remaining: each executed pass does `r - 1` comparisons and the
loop stops when no swap occurred. -/
def bubbleComps : Nat → List NumVal → Nat
  | 0, _ => 0
  | r + 1, xs => r + (if (bpass xs r).2 then bubbleComps r (bpass xs r).1 else 0)

theorem bubbleComps_le (r : Nat) : ∀ xs : List NumVal,
    bubbleComps r xs ≤ r * (r - 1) := by
  induction r with
  | zero => intro xs; simp [bubbleComps]
  | succ r ih =>
    intro xs
    have hb : bubbleComps (r + 1) xs ≤ r + r * (r - 1) := by
      simp only [bubbleComps]
      by_cases hs : (bpass xs r).2
      · simp only [hs, if_pos]
        exact Nat.add_le_add_left (ih (bpass xs r).1) r
      · simp [hs]
    refine le_trans hb ?_
    cases r with
    | zero => simp
    | succ s =>
      simp only [Nat.add_sub_cancel]
      nlinarith

/-! ## Number extraction: `re.findall(r"[+-]?\d+(?:\.\d+)?", text)` -/

/-- Greedy fractional part `(?:\.\d+)?`: consumed only when a `.` is directly
followed by at least one digit. -/
def fracSpan : List Char → List Char × List Char
  | [] => ([], [])
  | c :: cs =>
      if c = '.' ∧ cs.takeWhile Char.isDigit ≠ [] then
        (c :: cs.takeWhile Char.isDigit, cs.dropWhile Char.isDigit)
      else ([], c :: cs)

/-- Unsigned part of the pattern at the current position: `\d+(?:\.\d+)?`,
greedy, returning the matched characters and the remaining input. -/
def matchCore (cs : List Char) : Option (List Char × List Char) :=
  if cs.takeWhile Char.isDigit = [] then none
  else
    let f := fracSpan (cs.dropWhile Char.isDigit)
    some (cs.takeWhile Char.isDigit ++ f.1, f.2)

/-- Try the whole pattern `[+-]?\d+(?:\.\d+)?` at the current position.  As in
Python's regex engine, a sign not followed by a digit backtracks to the
signless alternative, which then fails since a sign is not a digit. -/
def matchAt : List Char → Option (List Char × List Char)
  | [] => none
  | c :: cs =>
      if c = '+' ∨ c = '-' then
        match matchCore cs with
        | some p => some (c :: p.1, p.2)
        | none => none
      else matchCore (c :: cs)

/-- `re.findall` scan: try the pattern at each position; on a match emit it
and resume right after it, otherwise advance one character.  Each step
consumes at least one character, so fuel `length` suffices. -/
def scanNum : Nat → List Char → List (List Char)
  | 0, _ => []
  | _ + 1, [] => []
  | fuel + 1, c :: cs =>
      match matchAt (c :: cs) with
      | some p => p.1 :: scanNum fuel p.2
      | none => scanNum fuel cs

/-- All tokens of the input text, in order of appearance. -/
def tokens (s : String) : List String :=
  (scanNum s.toList.length s.toList).map (fun t => String.mk t)

/-- After the leading digit run: the full match succeeds when nothing is left
or exactly `.` followed by one or more digits (and nothing else) remains. -/
def matchesRest : List Char → Bool
  | [] => true
  | '.' :: fs => !fs.isEmpty && fs.all Char.isDigit
  | _ => false

/-- Full-match checker for the numeric pattern, written from the pattern
itself: optional sign, one or more digits, optionally `.` followed by one or
more digits, and nothing else. -/
def matchesNumber (s : String) : Bool :=
  match s.toList with
  | [] => false
  | c :: cs =>
      let body := if c = '+' ∨ c = '-' then cs else c :: cs
      !(body.takeWhile Char.isDigit).isEmpty &&
        matchesRest (body.dropWhile Char.isDigit)

/-! ## Parsing tokens (`float(t) if "." in t else int(t)`) -/

/-- Value of a digit string, most significant first. -/
def digitsVal (ds : List Char) : Nat :=
  ds.foldl (fun a c => 10 * a + (c.toNat - 48)) 0

/-- `int(t)` on a token matched by the pattern (optional sign, digits). -/
def parseIntTok (t : List Char) : Int :=
  match t with
  | [] => 0
  | c :: cs =>
      if c = '-' then -(digitsVal cs : Int)
      else if c = '+' then (digitsVal cs : Int)
      else (digitsVal t : Int)

/-- Unsigned decimal `digits[.digits]` as an exact rational: the value of
`ds.fs` is `(ds * 10^|fs| + fs) / 10^|fs|`. -/
def parseDecTok (cs : List Char) : Rat :=
  let ds := cs.takeWhile Char.isDigit
  let rest := cs.dropWhile Char.isDigit
  if rest.head? = some '.' then
    mkRat (digitsVal ds * 10 ^ rest.tail.length + digitsVal rest.tail)
      (10 ^ rest.tail.length)
  else (digitsVal ds : Rat)

/-- `float(t)` on a token matched by the pattern, as an exact rational. -/
def parseFloatTok (t : List Char) : Rat :=
  match t with
  | [] => 0
  | c :: cs =>
      if c = '-' then -(parseDecTok cs)
      else if c = '+' then parseDecTok cs
      else parseDecTok t

/-- `float(t) if "." in t else int(t)`. -/
def parseToken (t : String) : NumVal :=
  if t.toList.contains '.' then .f (parseFloatTok t.toList) else .i (parseIntTok t.toList)

/-- `read_numbers`: tokenize the text and coerce every token. -/
def read_numbers (text : String) : List NumVal :=
  (tokens text).map parseToken

/-! ## Formatting (`str(int(x))` for whole values, `str(x)` otherwise) -/

/-- Decimal digits of the fractional part `r / d` by long division; for the
denominators arising from tokens (powers of 2 and 5) the expansion
terminates, matching Python's shortest round-trip float repr on these exact
decimal values. -/
def fracDigits : Nat → Nat → Nat → List Char
  | _, 0, _ => []
  | r, fuel + 1, d =>
      if r = 0 then []
      else Nat.digitChar ((10 * r) / d) :: fracDigits ((10 * r) % d) fuel d

/-- `str(x)` for a non-integral float value, e.g. `-2.5` prints `"-2.5"`. -/
def ratStr (q : Rat) : String :=
  let n := q.num.natAbs
  let d := q.den
  let sign := if q < 0 then "-" else ""
  sign ++ toString (n / d) ++ "." ++ String.mk (fracDigits (n % d) d d)

/-- The display rule of `main`:
`str(int(x))` when the value is an int or a whole-valued float, else `str(x)`. -/
def fmt (x : NumVal) : String :=
  match x with
  | .i n => toString n
  | .f q => if q.den = 1 then toString q.num else ratStr q

/-! ## Entry point / IO driver -/

/-- Outcome of one run of `main`: the exit status, the lines printed to
standard output, and the files written (path, contents) in order. -/
structure RunResult where
  exitCode : Nat
  stdout : List String
  fileWrites : List (String × String)
deriving DecidableEq, Repr

/-- `sys.argv[1] if len(sys.argv) > 1 else "numbers.txt"` (`argv` holds the
arguments after the program name). -/
def inputPath : List String → String
  | [] => "numbers.txt"
  | a :: _ => a

/-- `Path.with_suffix(".sorted.txt")`: replace the final extension of the last
path component (a leading dot or a trailing dot does not count as an
extension, as in `pathlib`). -/
def withSuffix (path : String) : String :=
  let cs := path.toList
  let revAll := cs.reverse
  let nameRev := revAll.takeWhile (fun c => c ≠ '/')
  let dirRev := revAll.dropWhile (fun c => c ≠ '/')
  let name := nameRev.reverse
  let dotIdxs := (List.range name.length).filter (fun i => name.getD i ' ' = '.')
  let stem :=
    match dotIdxs.getLast? with
    | some i => if 0 < i ∧ i < name.length - 1 then name.take i else name
    | none => name
  String.mk (dirRev.reverse ++ stem) ++ ".sorted.txt"

/-- `main`, as a function of the world it touches: `resolve` models
`Path.resolve()` (relative → absolute path), `fs` maps a path to the contents
of the regular file there (`none`: no regular file at that path), `argv` the
command-line arguments.  Python's permissive decoding (`errors="ignore"`) is
modelled by `fs` already holding decoded text. -/
def runMain (resolve : String → String) (fs : String → Option String)
    (argv : List String) : RunResult :=
  let path := inputPath argv
  match fs path with
  | none => ⟨1, ["Input file not found: " ++ resolve path], []⟩
  | some text =>
      let nums := read_numbers text
      if nums.isEmpty then ⟨0, ["No numbers found in the file."], []⟩
      else
        let out := (bubble_sort nums).map fmt
        let joined := String.intercalate " " out
        let outPath := withSuffix path
        ⟨0, ["Sorted numbers:", joined, "Written to: " ++ resolve outPath],
          [(outPath, joined)]⟩

theorem takeWhile_append_all (p : Char → Bool) (ds r : List Char)
    (h : ds.all p = true) : (ds ++ r).takeWhile p = ds ++ r.takeWhile p := by
  induction ds with
  | nil => simp
  | cons c t ih =>
    simp only [List.all_cons, Bool.and_eq_true] at h
    simp [List.takeWhile_cons, h.1, ih h.2]

theorem dropWhile_append_all (p : Char → Bool) (ds r : List Char)
    (h : ds.all p = true) : (ds ++ r).dropWhile p = r.dropWhile p := by
  induction ds with
  | nil => simp
  | cons c t ih =>
    simp only [List.all_cons, Bool.and_eq_true] at h
    simp [List.dropWhile_cons, h.1, ih h.2]


theorem fracSpan_shape (r : List Char) :
    (fracSpan r).1 = [] ∨
      ∃ fs, (fracSpan r).1 = '.' :: fs ∧ fs ≠ [] ∧ fs.all Char.isDigit = true := by
  match r with
  | [] => left; rfl
  | c :: cs =>
    by_cases h : c = '.' ∧ cs.takeWhile Char.isDigit ≠ []
    · right
      refine ⟨cs.takeWhile Char.isDigit, ?_, h.2, List.all_takeWhile⟩
      simp only [fracSpan]
      rw [if_pos h, h.1]
    · left
      simp only [fracSpan]
      rw [if_neg h]

/-- Shape of a successful `matchCore`: one or more digits, then an optional
dot-and-digits fractional part. -/
theorem matchCore_shape (cs tok rest : List Char)
    (h : matchCore cs = some (tok, rest)) :
    ∃ ds f, tok = ds ++ f ∧ ds ≠ [] ∧ ds.all Char.isDigit = true ∧
      (f = [] ∨ ∃ fs, f = '.' :: fs ∧ fs ≠ [] ∧ fs.all Char.isDigit = true) := by
  unfold matchCore at h
  by_cases hds : cs.takeWhile Char.isDigit = []
  · simp [hds] at h
  · simp only [hds, if_neg, if_false] at h
    simp only [Option.some.injEq, Prod.mk.injEq] at h
    exact ⟨cs.takeWhile Char.isDigit, (fracSpan (cs.dropWhile Char.isDigit)).1,
      h.1.symm, hds, List.all_takeWhile, fracSpan_shape _⟩

theorem toList_mk (l : List Char) : (String.mk l).toList = l := rfl

theorem numBody_eval (ds f : List Char) (h2 : ds.all Char.isDigit = true)
    (h3 : f = [] ∨ ∃ fs, f = '.' :: fs ∧ fs ≠ [] ∧ fs.all Char.isDigit = true) :
    (ds ++ f).takeWhile Char.isDigit = ds ∧ (ds ++ f).dropWhile Char.isDigit = f := by
  constructor
  · rw [takeWhile_append_all _ _ _ h2]
    rcases h3 with rfl | ⟨fs, rfl, _, _⟩
    · simp
    · simp [List.takeWhile_cons]
  · rw [dropWhile_append_all _ _ _ h2]
    rcases h3 with rfl | ⟨fs, rfl, _, _⟩
    · simp
    · simp [List.dropWhile_cons]
theorem matchesNumber_cons (c : Char) (cs : List Char) :
    matchesNumber (String.mk (c :: cs)) =
      (!((if c = '+' ∨ c = '-' then cs else c :: cs).takeWhile Char.isDigit).isEmpty &&
        matchesRest ((if c = '+' ∨ c = '-' then cs else c :: cs).dropWhile Char.isDigit)) :=
  rfl

theorem matchesNumber_shape (c : Option Char) (ds f : List Char)
    (hc : ∀ s ∈ c, s = '+' ∨ s = '-')
    (h1 : ds ≠ []) (h2 : ds.all Char.isDigit = true)
    (h3 : f = [] ∨ ∃ fs, f = '.' :: fs ∧ fs ≠ [] ∧ fs.all Char.isDigit = true) :
    matchesNumber (String.mk (c.toList ++ ds ++ f)) = true := by
  obtain ⟨heval1, heval2⟩ := numBody_eval ds f h2 h3
  have hdsE : ds.isEmpty = false := by
    cases ds with
    | nil => exact absurd rfl h1
    | cons d t => rfl
  have hrest : matchesRest f = true := by
    rcases h3 with rfl | ⟨fs, rfl, hfs1, hfs2⟩
    · rfl
    · have hfsE : fs.isEmpty = false := by
        cases fs with
        | nil => exact absurd rfl hfs1
        | cons e t => rfl
      simp [matchesRest, hfsE, hfs2]
  cases c with
  | none =>
    cases ds with
    | nil => exact absurd rfl h1
    | cons d ds0 =>
      have hd : d.isDigit = true := by
        have h4 := h2
        simp only [List.all_cons, Bool.and_eq_true] at h4
        exact h4.1
      have hnotsign : ¬(d = '+' ∨ d = '-') := by
        rintro (rfl | rfl) <;> simp at hd
      have hred : (String.mk (Option.toList none ++ (d :: ds0) ++ f)) =
          String.mk (d :: (ds0 ++ f)) := by simp
      rw [hred, matchesNumber_cons, if_neg hnotsign]
      have he1 : List.takeWhile Char.isDigit (d :: (ds0 ++ f)) = d :: ds0 := by
        simpa using heval1
      have he2 : List.dropWhile Char.isDigit (d :: (ds0 ++ f)) = f := by
        simpa using heval2
      rw [he1, he2, hrest]
      simp only [List.isEmpty_cons, Bool.not_false, Bool.true_and]
  | some sg =>
    have hsign : sg = '+' ∨ sg = '-' := hc sg (by simp)
    have hred : (String.mk (Option.toList (some sg) ++ ds ++ f)) =
        String.mk (sg :: (ds ++ f)) := by simp
    rw [hred, matchesNumber_cons, if_pos hsign, heval1, heval2, hrest]
    simp [hdsE]

theorem matchAt_matches (cs tok rest : List Char)
    (h : matchAt cs = some (tok, rest)) :
    matchesNumber (String.mk tok) = true := by
  match cs with
  | [] => simp [matchAt] at h
  | c :: cs2 =>
    by_cases hsign : c = '+' ∨ c = '-'
    · simp only [matchAt, if_pos hsign] at h
      cases hmc : matchCore cs2 with
      | none => rw [hmc] at h; simp at h
      | some p =>
        rw [hmc] at h
        simp only [Option.some.injEq, Prod.mk.injEq] at h
        obtain ⟨ds, f, hp1, hds, hall, hf⟩ := matchCore_shape cs2 p.1 p.2 (by rw [hmc])
        have htok : tok = c :: (ds ++ f) := by rw [← h.1, hp1]
        have := matchesNumber_shape (some c) ds f (by simpa using hsign) hds hall hf
        simpa [htok] using this
    · simp only [matchAt, if_neg hsign] at h
      obtain ⟨ds, f, hp1, hds, hall, hf⟩ := matchCore_shape (c :: cs2) tok rest h
      have := matchesNumber_shape none ds f (by simp) hds hall hf
      simpa [hp1] using this

theorem scanNum_matches (fuel : Nat) : ∀ cs t, t ∈ scanNum fuel cs →
    matchesNumber (String.mk t) = true := by
  induction fuel with
  | zero => intro cs t ht; simp [scanNum] at ht
  | succ fuel ih =>
    intro cs t ht
    match cs with
    | [] => simp [scanNum] at ht
    | c :: cs2 =>
      cases hma : matchAt (c :: cs2) with
      | some p =>
        rw [scanNum, hma] at ht
        rcases List.mem_cons.1 ht with rfl | ht2
        · exact matchAt_matches (c :: cs2) p.1 p.2 (by rw [hma])
        · exact ih p.2 _ ht2
      | none =>
        rw [scanNum, hma] at ht
        exact ih cs2 t ht

/-- Every token that extraction returns fully matches the numeric pattern. -/
theorem tokens_matches (s t : String) (ht : t ∈ tokens s) :
    matchesNumber t = true := by
  unfold tokens at ht
  rcases List.mem_map.1 ht with ⟨u, hu, rfl⟩
  exact scanNum_matches _ _ u hu

theorem parseToken_of_no_dot (t : String) (h : t.toList.contains '.' = false) :
    parseToken t = .i (parseIntTok t.toList) := by
  unfold parseToken
  rw [h]
  simp

theorem parseToken_of_dot (t : String) (h : t.toList.contains '.' = true) :
    parseToken t = .f (parseFloatTok t.toList) := by
  unfold parseToken
  rw [h]
  simp

theorem contains_dot_false_of_digits (t : List Char)
    (h : ∀ c ∈ t, c.isDigit = true) : t.contains '.' = false := by
  by_contra hcon
  have hmem : '.' ∈ t := by
    have := Bool.of_not_eq_false hcon
    simpa using this
  have := h '.' hmem
  simp at this

theorem digitsVal_leading_zero (t : List Char) :
    digitsVal ('0' :: t) = digitsVal t := by
  have hz : (10 * 0 + ('0'.toNat - 48)) = 0 := by decide
  simp [digitsVal, List.foldl_cons, hz]

theorem parseIntTok_digits (t : List Char) (h : ∀ c ∈ t, c.isDigit = true) :
    parseIntTok t = (digitsVal t : Int) := by
  match t with
  | [] => simp [parseIntTok, digitsVal]
  | c :: cs =>
    have hc : c.isDigit = true := h c (by simp)
    have h1 : ¬ c = '-' := by rintro rfl; simp at hc
    have h2 : ¬ c = '+' := by rintro rfl; simp at hc
    simp [parseIntTok, h1, h2]

theorem not_mem_dot_of_digits (t : List Char)
    (h : ∀ c ∈ t, c.isDigit = true) : '.' ∉ t := by
  intro hm
  have := h '.' hm
  simp at this

theorem contains_cons_ne (c a : Char) (t : List Char) (h : a ≠ c) :
    (c :: t).contains a = t.contains a := by
  simp [List.contains_cons, h]

/-- `int(t)` on a signless token is the plain digit value. -/
theorem parseIntTok_not_sign (t : List Char)
    (h : ∀ c ∈ t.head?, ¬(c = '+' ∨ c = '-')) :
    parseIntTok t = (digitsVal t : Int) := by
  match t with
  | [] => simp [parseIntTok, digitsVal]
  | c :: cs =>
    have hc := h c (by simp)
    push_neg at hc
    simp [parseIntTok, hc.1, hc.2]

/-- `float(t)` on a signless token is the plain unsigned decimal value. -/
theorem parseFloatTok_not_sign (t : List Char)
    (h : ∀ c ∈ t.head?, ¬(c = '+' ∨ c = '-')) :
    parseFloatTok t = parseDecTok t := by
  match t with
  | [] =>
    simp [parseFloatTok, parseDecTok, digitsVal]
  | c :: cs =>
    have hc := h c (by simp)
    push_neg at hc
    simp [parseFloatTok, hc.1, hc.2]

/-- Prefixing any digit to the scanned text prefixes it to the digit run. -/
theorem parseDecTok_cons_digit (d : Char) (hd : d.isDigit = true) (t : List Char) :
    parseDecTok (d :: t) =
      (if (t.dropWhile Char.isDigit).head? = some '.' then
        mkRat (digitsVal (d :: t.takeWhile Char.isDigit) *
            10 ^ (t.dropWhile Char.isDigit).tail.length +
            digitsVal (t.dropWhile Char.isDigit).tail)
          (10 ^ (t.dropWhile Char.isDigit).tail.length)
      else (digitsVal (d :: t.takeWhile Char.isDigit) : Rat)) := by
  unfold parseDecTok
  rw [List.takeWhile_cons, List.dropWhile_cons]
  simp [hd]

/-- A leading zero never changes the parsed unsigned decimal value. -/
theorem parseDecTok_leading_zero (t : List Char) :
    parseDecTok ('0' :: t) = parseDecTok t := by
  rw [parseDecTok_cons_digit '0' (by decide) t]
  unfold parseDecTok
  by_cases h : (t.dropWhile Char.isDigit).head? = some '.' <;>
    simp [h, digitsVal_leading_zero]

theorem parseToken_plus_sign (t : List Char)
    (h : ∀ c ∈ t.head?, ¬(c = '+' ∨ c = '-')) :
    parseToken (String.mk ('+' :: t)) = parseToken (String.mk t) := by
  unfold parseToken
  simp only [toList_mk]
  rw [contains_cons_ne '+' '.' t (by decide)]
  cases hdot : t.contains '.' with
  | true =>
    simp only [hdot, if_true]
    rw [parseFloatTok_not_sign t h]
    simp [parseFloatTok]
  | false =>
    simp only [hdot, Bool.false_eq_true, if_false]
    rw [parseIntTok_not_sign t h]
    simp [parseIntTok]

theorem parseToken_leading_zero (t : List Char)
    (h : ∀ c ∈ t.head?, ¬(c = '+' ∨ c = '-')) :
    parseToken (String.mk ('0' :: t)) = parseToken (String.mk t) := by
  unfold parseToken
  simp only [toList_mk]
  rw [contains_cons_ne '0' '.' t (by decide)]
  cases hdot : t.contains '.' with
  | true =>
    simp only [hdot, if_true]
    rw [parseFloatTok_not_sign t h,
      parseFloatTok_not_sign ('0' :: t) (by intro c hc; simp at hc; subst hc; decide),
      parseDecTok_leading_zero]
  | false =>
    simp only [hdot, Bool.false_eq_true, if_false]
    rw [parseIntTok_not_sign t h,
      parseIntTok_not_sign ('0' :: t) (by intro c hc; simp at hc; subst hc; decide)]
    simp [digitsVal_leading_zero]

theorem digitsVal_append_zero (fs : List Char) :
    digitsVal (fs ++ ['0']) = 10 * digitsVal fs := by
  unfold digitsVal
  rw [List.foldl_append]
  simp

theorem mkRat_ten_scale (a : Int) (b : Nat) :
    mkRat (10 * a) (10 * b) = mkRat a b := by
  rw [Rat.mkRat_eq_div, Rat.mkRat_eq_div]
  push_cast
  rw [mul_div_mul_left]
  norm_num

/-- The core of trailing-zero erasure: an extra `0` at the end of the
fractional digits leaves the parsed unsigned decimal value unchanged. -/
theorem parseDecTok_trailing_zero (ds fs : List Char)
    (hds : ds.all Char.isDigit = true) :
    parseDecTok (ds ++ '.' :: (fs ++ ['0'])) = parseDecTok (ds ++ '.' :: fs) := by
  have hdig : ('.').isDigit = false := by decide
  unfold parseDecTok
  rw [takeWhile_append_all _ _ _ hds, takeWhile_append_all _ _ _ hds,
    dropWhile_append_all _ _ _ hds, dropWhile_append_all _ _ _ hds]
  simp only [List.takeWhile_cons, List.dropWhile_cons, hdig, Bool.false_eq_true,
    if_false, List.append_nil, List.head?_cons, List.tail_cons, if_pos]
  rw [digitsVal_append_zero]
  have hlen : (fs ++ ['0']).length = fs.length + 1 := by simp
  rw [hlen]
  have harr : ((digitsVal ds : Int) * 10 ^ (fs.length + 1) +
        ((10 * digitsVal fs : Nat) : Int)) =
      10 * ((digitsVal ds : Int) * 10 ^ fs.length + ((digitsVal fs : Nat) : Int)) := by
    push_cast
    ring
  rw [harr, pow_succ, mul_comm ((10 : Nat) ^ fs.length) 10, mkRat_ten_scale]

/-- Trailing-zero erasure for full tokens: for every token shape
`[sign]digits.digits`, appending a `0` to the fractional part leaves the
parsed value (hence the rendering) unchanged. -/
theorem parseToken_trailing_zero (s : Option Char) (ds fs : List Char)
    (hs : ∀ c ∈ s, c = '+' ∨ c = '-')
    (hds1 : ds ≠ []) (hds2 : ∀ c ∈ ds, c.isDigit = true) :
    parseToken (String.mk (s.toList ++ ds ++ '.' :: (fs ++ ['0']))) =
      parseToken (String.mk (s.toList ++ ds ++ '.' :: fs)) := by
  have hdsall : ds.all Char.isDigit = true := List.all_eq_true.2 hds2
  have hdot : ∀ X : List Char, (s.toList ++ ds ++ '.' :: X).contains '.' = true := by
    intro X
    simp
  rw [parseToken_of_dot _ (hdot (fs ++ ['0'])), parseToken_of_dot _ (hdot fs)]
  simp only [toList_mk, NumVal.f.injEq]
  have hcore : parseDecTok (ds ++ '.' :: (fs ++ ['0'])) =
      parseDecTok (ds ++ '.' :: fs) := parseDecTok_trailing_zero ds fs hdsall
  cases s with
  | none =>
    have hhead : ∀ X : List Char, ∀ c ∈ (ds ++ '.' :: X).head?, ¬(c = '+' ∨ c = '-') := by
      intro X c hc
      cases ds with
      | nil => exact absurd rfl hds1
      | cons d ds0 =>
        simp only [List.cons_append, List.head?_cons, Option.mem_def,
          Option.some.injEq] at hc
        subst hc
        have hd := hds2 d (by simp)
        rintro (rfl | rfl) <;> simp at hd
    simp only [Option.toList, List.nil_append]
    rw [parseFloatTok_not_sign _ (hhead (fs ++ ['0'])),
      parseFloatTok_not_sign _ (hhead fs), hcore]
  | some sg =>
    rcases hs sg (by simp) with rfl | rfl <;>
      simp [parseFloatTok, hcore]

/-! ## Claim theorems -/

/-- C1: for every finite input list of numeric values, `bubble_sort` returns a
permutation of the input that is non-decreasing under the numeric value order
(mixed int/float values compared by numeric value). -/
theorem C1_bubble_sort_perm_and_sorted (l : List NumVal) :
    List.Perm (bubble_sort l) l ∧ List.Pairwise nle (bubble_sort l) :=
  ⟨bubble_sort_perm l, bubble_sort_pairwise l⟩

/-- C2: a token with no `.` parses as an integer value, a token with `.`
parses as a floating-point value; the formatter drops the decimal point for
integers and whole-valued floats, so `"5"` renders `"5"`, `"5.0"` parses as a
float but renders `"5"`, and `"5.25"` renders `"5.25"`. -/
theorem C2_int_float_tagging_and_rendering (t u : String)
    (h1 : t.toList.contains '.' = false) (h2 : u.toList.contains '.' = true) :
    (∃ n : Int, parseToken t = NumVal.i n) ∧
    (∃ q : Rat, parseToken u = NumVal.f q) ∧
    fmt (parseToken "5") = "5" ∧
    parseToken "5.0" = NumVal.f 5 ∧
    fmt (parseToken "5.0") = "5" ∧
    fmt (parseToken "5.25") = "5.25" :=
  ⟨⟨_, parseToken_of_no_dot t h1⟩, ⟨_, parseToken_of_dot u h2⟩,
    by decide, by decide, by decide, by decide⟩

theorem C2_witness :
    (("5" : String).toList.contains '.' = false) ∧
    (("5.0" : String).toList.contains '.' = true) ∧
    ((∃ n : Int, parseToken "5" = NumVal.i n) ∧
      (∃ q : Rat, parseToken "5.0" = NumVal.f q) ∧
      fmt (parseToken "5") = "5" ∧
      parseToken "5.0" = NumVal.f 5 ∧
      fmt (parseToken "5.0") = "5" ∧
      fmt (parseToken "5.25") = "5.25") :=
  ⟨by decide, by decide,
    C2_int_float_tagging_and_rendering "5" "5.0" (by decide) (by decide)⟩

/-- C3: the sort is stable: for every input list and every numeric value, the
elements of that value appear in the output in exactly the order (and
multiplicity) they had in the input, because swaps happen only on strict
inequality. -/
theorem C3_stability (l : List NumVal) (v : Rat) :
    (bubble_sort l).filter (fun a => decide (a.val = v)) =
      l.filter (fun a => decide (a.val = v)) := by
  apply bubble_sort_filter
  intro a b ha hb
  simp only [decide_eq_true_eq] at ha hb
  rw [ha, hb]
  exact lt_irrefl v

/-- C4 (counterexample to the claim as stated): numbers are extracted from
the malformed numeric-like substrings `"1.2.3"` and `"12abc"`, contrary to
the claim that no number is extracted from them. -/
theorem C4_counterexample : tokens "1.2.3" ≠ [] ∧ tokens "12abc" ≠ [] := by
  constructor <;> decide

/-- C4 (amended): extraction returns only substrings fully matching the
numeric pattern (optional sign, one or more digits, optional `.` followed by
one or more digits), in order of appearance; but malformed numeric-like text
still contributes its maximal matching parts: `"1.2.3"` yields `"1.2"` and
`"3"`, `"12abc"` yields `"12"`. -/
theorem C4_amended_tokens_match (s t : String) (ht : t ∈ tokens s) :
    matchesNumber t = true ∧
    tokens "1.2.3" = ["1.2", "3"] ∧ tokens "12abc" = ["12"] :=
  ⟨tokens_matches s t ht, by decide, by decide⟩

theorem C4_witness :
    (("1.2" : String) ∈ tokens "1.2.3") ∧
    (matchesNumber "1.2" = true ∧
      tokens "1.2.3" = ["1.2", "3"] ∧ tokens "12abc" = ["12"]) :=
  ⟨by decide, C4_amended_tokens_match "1.2.3" "1.2" (by decide)⟩

/-- C5: if there is no regular file at the resolved input path, the program
prints an error naming the resolved path, exits with status 1, and writes no
file (and sorts nothing). -/
theorem C5_missing_input (resolve : String → String) (fs : String → Option String)
    (argv : List String) (h : fs (inputPath argv) = none) :
    runMain resolve fs argv =
      ⟨1, ["Input file not found: " ++ resolve (inputPath argv)], []⟩ := by
  unfold runMain
  simp [h]

theorem C5_witness :
    ((fun _ : String => (none : Option String))
        (inputPath ["/tmp/does_not_exist.txt"]) = none) ∧
    runMain id (fun _ : String => (none : Option String)) ["/tmp/does_not_exist.txt"] =
      ⟨1, ["Input file not found: /tmp/does_not_exist.txt"], []⟩ :=
  ⟨rfl, C5_missing_input id (fun _ => none) ["/tmp/does_not_exist.txt"] rfl⟩

/-- C6: if the input file exists but extraction yields no numeric values, the
program prints `"No numbers found in the file."`, exits with status 0, and
creates no output file. -/
theorem C6_no_numbers (resolve : String → String) (fs : String → Option String)
    (argv : List String) (text : String)
    (h1 : fs (inputPath argv) = some text) (h2 : read_numbers text = []) :
    runMain resolve fs argv = ⟨0, ["No numbers found in the file."], []⟩ := by
  unfold runMain
  simp [h1, h2]

theorem C6_witness :
    ((fun p : String => if p = "numbers.txt" then some "no digits here!" else none)
        (inputPath []) = some "no digits here!") ∧
    read_numbers "no digits here!" = [] ∧
    runMain id
        (fun p : String => if p = "numbers.txt" then some "no digits here!" else none)
        [] = ⟨0, ["No numbers found in the file."], []⟩ :=
  ⟨by decide, by decide,
    C6_no_numbers id _ [] "no digits here!" (by decide) (by decide)⟩

/-- C7: on a successful run the output path is the input path with its final
extension replaced by `.sorted.txt`; the file contents are exactly the
space-joined sorted rendered values with no trailing newline, identical to
the second stdout line; the write happens for every file-system state, i.e.
an existing file at that path is overwritten unconditionally. -/
theorem C7_output_file (resolve : String → String) (fs : String → Option String)
    (argv : List String) (text : String)
    (h1 : fs (inputPath argv) = some text) (h2 : read_numbers text ≠ []) :
    runMain resolve fs argv =
      ⟨0, ["Sorted numbers:",
            String.intercalate " " ((bubble_sort (read_numbers text)).map fmt),
            "Written to: " ++ resolve (withSuffix (inputPath argv))],
        [(withSuffix (inputPath argv),
          String.intercalate " " ((bubble_sort (read_numbers text)).map fmt))]⟩ ∧
    (runMain resolve fs argv).stdout[1]? =
      some (String.intercalate " " ((bubble_sort (read_numbers text)).map fmt)) := by
  have hE : (read_numbers text).isEmpty = false := by
    cases hn : read_numbers text with
    | nil => exact absurd hn h2
    | cons a l => rfl
  have hmain : runMain resolve fs argv =
      ⟨0, ["Sorted numbers:",
            String.intercalate " " ((bubble_sort (read_numbers text)).map fmt),
            "Written to: " ++ resolve (withSuffix (inputPath argv))],
        [(withSuffix (inputPath argv),
          String.intercalate " " ((bubble_sort (read_numbers text)).map fmt))]⟩ := by
    unfold runMain
    simp [h1, hE]
  refine ⟨hmain, ?_⟩
  rw [hmain]
  rfl

theorem C7_witness :
    ((fun p : String => if p = "in.txt" then some "12, 5, 9\n3  1\n7" else none)
        (inputPath ["in.txt"]) = some "12, 5, 9\n3  1\n7") ∧
    read_numbers "12, 5, 9\n3  1\n7" ≠ [] ∧
    (runMain id
        (fun p : String => if p = "in.txt" then some "12, 5, 9\n3  1\n7" else none)
        ["in.txt"] =
      ⟨0, ["Sorted numbers:",
            String.intercalate " "
              ((bubble_sort (read_numbers "12, 5, 9\n3  1\n7")).map fmt),
            "Written to: " ++ id (withSuffix (inputPath ["in.txt"]))],
        [(withSuffix (inputPath ["in.txt"]),
          String.intercalate " "
            ((bubble_sort (read_numbers "12, 5, 9\n3  1\n7")).map fmt))]⟩ ∧
      (runMain id
          (fun p : String => if p = "in.txt" then some "12, 5, 9\n3  1\n7" else none)
          ["in.txt"]).stdout[1]? =
        some (String.intercalate " "
          ((bubble_sort (read_numbers "12, 5, 9\n3  1\n7")).map fmt))) :=
  ⟨by decide, by decide,
    C7_output_file id _ ["in.txt"] "12, 5, 9\n3  1\n7" (by decide) (by decide)⟩

/-- C8: on an already non-decreasing input the first pass performs zero swaps
(`swapped` stays false), the loop exits after that single pass, the output is
identical to the input, and sorting is idempotent. -/
theorem C8_sorted_input_identity (l : List NumVal) (h : List.Pairwise nle l) :
    (bpass l (l.length - 1)).2 = false ∧ bubble_sort l = l ∧
      bubble_sort (bubble_sort l) = bubble_sort l := by
  have hchain : List.Chain' nle l := List.chain'_iff_pairwise.2 h
  have hid : bubble_sort l = l := bubbleAux_of_chain l.length l hchain
  refine ⟨?_, hid, by rw [hid, hid]⟩
  rw [bpass_of_chain l _ hchain]

theorem C8_witness :
    List.Pairwise nle [NumVal.i 1, NumVal.i 1, NumVal.f (mkRat 5 2)] ∧
    ((bpass [NumVal.i 1, NumVal.i 1, NumVal.f (mkRat 5 2)]
        ([NumVal.i 1, NumVal.i 1, NumVal.f (mkRat 5 2)].length - 1)).2 = false ∧
      bubble_sort [NumVal.i 1, NumVal.i 1, NumVal.f (mkRat 5 2)] =
        [NumVal.i 1, NumVal.i 1, NumVal.f (mkRat 5 2)] ∧
      bubble_sort (bubble_sort [NumVal.i 1, NumVal.i 1, NumVal.f (mkRat 5 2)]) =
        bubble_sort [NumVal.i 1, NumVal.i 1, NumVal.f (mkRat 5 2)]) :=
  ⟨by decide, C8_sorted_input_identity _ (by decide)⟩

/-- C9: `bubble_sort` terminates on every finite list with every index access
in bounds (the literal index-level embedding never fails and agrees with the
structural one), and performs at most `n` outer passes of at most `n - 1`
comparisons each. -/
theorem C9_termination_and_bounds (l : List NumVal) :
    bubble_sortIdx l = some (bubble_sort l) ∧
      bubbleComps l.length l ≤ l.length * (l.length - 1) :=
  ⟨bubble_sortIdx_eq l, bubbleComps_le l.length l⟩

/-- C10: rendered output is derived from the parsed numeric value, not the
original token text: for every token body (integer and dotted tokens alike),
an explicit `+` sign and a leading zero leave the parsed value unchanged, and
for every `[sign]digits.digits` token a trailing fractional zero leaves the
parsed value unchanged; hence `"+5"` renders `"5"`, `"007"` renders `"7"`,
and `"5.250"` renders `"5.25"`. -/
theorem C10_value_based_rendering (t : List Char) (s : Option Char)
    (ds fs : List Char)
    (ht : ∀ c ∈ t.head?, ¬(c = '+' ∨ c = '-'))
    (hs : ∀ c ∈ s, c = '+' ∨ c = '-')
    (hds1 : ds ≠ []) (hds2 : ∀ c ∈ ds, c.isDigit = true) :
    parseToken (String.mk ('+' :: t)) = parseToken (String.mk t) ∧
    parseToken (String.mk ('0' :: t)) = parseToken (String.mk t) ∧
    parseToken (String.mk (s.toList ++ ds ++ '.' :: (fs ++ ['0']))) =
      parseToken (String.mk (s.toList ++ ds ++ '.' :: fs)) ∧
    fmt (parseToken "+5") = "5" ∧
    fmt (parseToken "007") = "7" ∧
    fmt (parseToken "5.250") = "5.25" :=
  ⟨parseToken_plus_sign t ht, parseToken_leading_zero t ht,
    parseToken_trailing_zero s ds fs hs hds1 hds2,
    by decide, by decide, by decide⟩

theorem C10_witness :
    (∀ c ∈ (['5', '.', '2', '5'] : List Char).head?, ¬(c = '+' ∨ c = '-')) ∧
    (∀ c ∈ (some '-' : Option Char), c = '+' ∨ c = '-') ∧
    ((['5'] : List Char) ≠ []) ∧
    (∀ c ∈ (['5'] : List Char), c.isDigit = true) ∧
    (parseToken (String.mk ('+' :: ['5', '.', '2', '5'])) =
        parseToken (String.mk ['5', '.', '2', '5']) ∧
      parseToken (String.mk ('0' :: ['5', '.', '2', '5'])) =
        parseToken (String.mk ['5', '.', '2', '5']) ∧
      parseToken
          (String.mk ((some '-' : Option Char).toList ++ ['5'] ++ '.' :: (['2'] ++ ['0']))) =
        parseToken (String.mk ((some '-' : Option Char).toList ++ ['5'] ++ '.' :: ['2'])) ∧
      fmt (parseToken "+5") = "5" ∧
      fmt (parseToken "007") = "7" ∧
      fmt (parseToken "5.250") = "5.25") :=
  ⟨by decide, by decide, by decide, by decide,
    C10_value_based_rendering ['5', '.', '2', '5'] (some '-') ['5'] ['2']
      (by decide) (by decide) (by decide) (by decide)⟩
